import Mathlib

/-!
Verification of the n34 client's core logic: status resolution
(`NostrClient::fetch_issue_status`, `fetch_pr_status`, `fetch_patch_status`
in `src/nostr_utils/mod.rs`), relay-list merging (`dedup` in
`src/nostr_utils/utils.rs`), patch filename derivation
(`GitPatch::filename`, `patch_version_and_subject`, `patch_file_name`
in `src/cli/commands/patch/mod.rs`), the status-kind codecs
(`IssueStatus`, `PatchPrStatus`) and the status-transition guards
(`src/cli/commands/patch/apply.rs`, `merge.rs`,
`src/cli/common_commands.rs`).

Modelling conventions:
* Nostr `Kind` values are the wire numbers (`Nat`); the NIP-34 status
  kinds are 1630..1633 as in the `nostr` crate.
* Public keys are abstracted as `Nat`; event ids as their hex `String`
  (the code compares tag contents against `EventId::to_hex()`).
* An event's tag is its wire form, a list of strings.
* The relay network is a black box in the spec; a fetch is modelled by
  its result list of events, and the `Filter` (subject id, kind set,
  author set) is applied to that list following the spec's description
  of the Event Store Gateway ("all status-kind events that reference
  `root_id` and were authored by a member of `authorized_signers`").
* Rust's `Iterator::max_by_key` returns the last maximal element; the
  model folds left keeping the later element on ties.
-/

/-- Errors of the modelled fragment of `N34Error` (src/error.rs). -/
inductive N34Error where
  | InvalidStatus (msg : String)
  | InvalidEvent (msg : String)
  | InvalidIssueStatus (kind : Nat)
  | InvalidPatchStatus (kind : Nat)
deriving DecidableEq, Repr

/-- Wire number of `Kind::GitStatusOpen`. -/
def gitStatusOpen : Nat := 1630

/-- Wire number of `Kind::GitStatusApplied`. -/
def gitStatusApplied : Nat := 1631

/-- Wire number of `Kind::GitStatusClosed`. -/
def gitStatusClosed : Nat := 1632

/-- Wire number of `Kind::GitStatusDraft`. -/
def gitStatusDraft : Nat := 1633

/-- `IssueStatus` from `src/cli/commands/issue/mod.rs`. -/
inductive IssueStatus where
  | Open
  | Resolved
  | Closed
deriving DecidableEq, Repr

/-- `IssueStatus::kind` — maps the issue status to its Nostr kind. -/
def IssueStatus.kind : IssueStatus → Nat
  | .Open => gitStatusOpen
  | .Resolved => gitStatusApplied
  | .Closed => gitStatusClosed

/-- `TryFrom<Kind> for IssueStatus` — decodes a wire kind, failing on
unknown kinds with `InvalidIssueStatus`. -/
def IssueStatus.try_from (kind : Nat) : Except N34Error IssueStatus :=
  if kind = gitStatusOpen then .ok .Open
  else if kind = gitStatusApplied then .ok .Resolved
  else if kind = gitStatusClosed then .ok .Closed
  else .error (.InvalidIssueStatus kind)

/-- `PatchPrStatus` from `src/cli/types.rs`. -/
inductive PatchPrStatus where
  | Open
  | MergedApplied
  | Closed
  | Draft
deriving DecidableEq, Repr

/-- `PatchPrStatus::kind`. -/
def PatchPrStatus.kind : PatchPrStatus → Nat
  | .Open => gitStatusOpen
  | .MergedApplied => gitStatusApplied
  | .Closed => gitStatusClosed
  | .Draft => gitStatusDraft

/-- `PatchPrStatus::all_kinds`. -/
def PatchPrStatus.all_kinds : List Nat :=
  [PatchPrStatus.Open.kind, PatchPrStatus.MergedApplied.kind,
   PatchPrStatus.Closed.kind, PatchPrStatus.Draft.kind]

/-- `TryFrom<Kind> for PatchPrStatus` — decodes a wire kind, failing on
unknown kinds with `InvalidPatchStatus`. -/
def PatchPrStatus.try_from (kind : Nat) : Except N34Error PatchPrStatus :=
  if kind = gitStatusOpen then .ok .Open
  else if kind = gitStatusApplied then .ok .MergedApplied
  else if kind = gitStatusClosed then .ok .Closed
  else if kind = gitStatusDraft then .ok .Draft
  else .error (.InvalidPatchStatus kind)

/-- `PatchPrStatus::is_merged_or_applied`. -/
def PatchPrStatus.is_merged_or_applied : PatchPrStatus → Bool
  | .MergedApplied => true
  | _ => false

/-- `PatchPrStatus::is_closed`. -/
def PatchPrStatus.is_closed : PatchPrStatus → Bool
  | .Closed => true
  | _ => false

/-- `PatchPrStatus::is_drafted`. -/
def PatchPrStatus.is_drafted : PatchPrStatus → Bool
  | .Draft => true
  | _ => false

/-- A Nostr event as the status-resolution code sees it: author public
key, creation timestamp, kind number, and wire tags. -/
structure NEvent where
  pubkey : Nat
  created_at : Nat
  kind : Nat
  tags : List (List String)
deriving DecidableEq, Repr

/-- Removes consecutive duplicate elements, as Rust's `Vec::dedup`. -/
def dedupConsecutive {α : Type} [DecidableEq α] : List α → List α
  | [] => []
  | [a] => [a]
  | a :: b :: rest =>
    if a = b then dedupConsecutive (b :: rest) else a :: dedupConsecutive (b :: rest)

/-- `dedup` from `src/nostr_utils/utils.rs`: collect, `sort_unstable`,
then `Vec::dedup` (which removes consecutive duplicates). A sorted
permutation of a list over a linear order is unique, so the unstable
sort is modelled by insertion sort. -/
def dedup {α : Type} [LinearOrder α] (l : List α) : List α :=
  dedupConsecutive (List.insertionSort (· ≤ ·) l)

/-- Whether an event carries an `e` tag whose value is the given id —
the model of `Filter::event(id)` matching, per the spec's "reference
`root_id` as their subject". -/
def refsEventId (e : NEvent) (id : String) : Bool :=
  e.tags.any fun t => t.head? == some "e" && t[1]? == some id

/-- The Event Store Gateway query for status events: all events that
reference `subject`, have one of the status `kinds`, and are authored
by a member of `authors` (the fetch filter of `fetch_issue_status`,
`fetch_pr_status` and `fetch_patch_status`). -/
def statusFilter (events : List NEvent) (subject : String) (kinds : List Nat)
    (authors : List Nat) : List NEvent :=
  events.filter fun e => refsEventId e subject && kinds.contains e.kind && authors.contains e.pubkey

/-- Rust's `Iterator::max_by_key(|e| e.created_at)`: the last element
with the maximal creation timestamp. -/
def maxByCreatedAt (l : List NEvent) : Option NEvent :=
  l.foldl (fun acc e =>
    match acc with
    | none => some e
    | some m => if m.created_at ≤ e.created_at then some e else some m) none

/-- `NostrClient::fetch_issue_status`: reduce the authorized status
events addressed to the issue to the newest one and decode its kind;
default `Open` when none exists. -/
def fetch_issue_status (events : List NEvent) (issue_id : String)
    (authorized_pubkeys : List Nat) : Except N34Error IssueStatus :=
  match maxByCreatedAt (statusFilter events issue_id
      [gitStatusOpen, gitStatusApplied, gitStatusClosed] (dedup authorized_pubkeys)) with
  | some status => IssueStatus.try_from status.kind
  | none => .ok .Open

/-- `NostrClient::fetch_pr_status`: like `fetch_issue_status` but over
the four patch/PR status kinds. -/
def fetch_pr_status (events : List NEvent) (pr_id : String)
    (authorized_pubkeys : List Nat) : Except N34Error PatchPrStatus :=
  match maxByCreatedAt (statusFilter events pr_id PatchPrStatus.all_kinds
      (dedup authorized_pubkeys)) with
  | some status => PatchPrStatus.try_from status.kind
  | none => .ok .Open

/-- Whether a tag is an `e` tag with a `reply` NIP-10 marker whose
content is `id` — the `t.is_reply() && t.content() == revision.to_hex()`
check on the winning status event's `e` tags in `fetch_patch_status`. -/
def isReplyRefTo (tag : List String) (id : String) : Bool :=
  tag.head? == some "e" && tag[3]? == some "reply" && tag[1]? == some id

/-- `NostrClient::fetch_patch_status`: resolve the newest authorized
status event addressed to the root patch; when the queried entity is a
root-revision and the root's status is merged/applied without a
reply-marked `e` reference to this revision, override to `Closed`. -/
def fetch_patch_status (events : List NEvent) (root_patch : String)
    (root_revision : Option String) (authorized_pubkeys : List Nat) :
    Except N34Error PatchPrStatus :=
  match maxByCreatedAt (statusFilter events root_patch PatchPrStatus.all_kinds
    (dedup authorized_pubkeys)) with
  | none =>
    -- the code pairs `(PatchPrStatus::Open, Tags::new())`; `Open` is not
    -- merged/applied, so the revision override cannot fire.
    .ok .Open
  | some status =>
    match PatchPrStatus.try_from status.kind with
    | .error e => .error e
    | .ok root_status =>
      match root_revision with
      | some revision_id =>
        if root_status.is_merged_or_applied
            && !(status.tags.any fun t => isReplyRefTo t revision_id) then
          .ok .Closed
        else
          .ok root_status
      | none => .ok root_status

/-- Relay merge (§4.1 of the spec): concatenate the source lists in
order, then dedup — the `[ ... ].concat()` / `dedup` pattern of
`common_commands.rs` and `new_nevent`. Relay URLs are abstracted to a
linearly ordered type (Rust's `Ord` on `RelayUrl` is the lexicographic
order of the URL string). -/
def mergeRelays {α : Type} [LinearOrder α] (sources : List (List α)) : List α :=
  dedup sources.flatten

/-- ASCII whitespace, modelling Rust's `char::is_whitespace` / regex
`\s` on the ASCII plane. -/
def isWs (c : Char) : Bool := c.isWhitespace

/-- The character class kept by `patch_file_name`: ASCII alphanumerics
plus `.`, `-`, `_`. -/
def allowedChar (c : Char) : Bool :=
  c.isAlphanum || c == '.' || c == '-' || c == '_'

/-- Lowercase a character, then replace it by `-` unless it is in the
allowed class — one character of the
`.to_lowercase().replace(|c| ..., "-")` pipeline. -/
def lowerReplace (c : Char) : Char :=
  let lc := c.toLower
  if allowedChar lc then lc else '-'

/-- `str::trim`-style trimming of both ends by a predicate. -/
def trimBy (p : Char → Bool) (l : List Char) : List Char :=
  ((l.dropWhile p).reverse.dropWhile p).reverse

/-- Rust's `str::replace("--", "-")`: one left-to-right pass replacing
non-overlapping `--` occurrences by `-`. -/
def replaceDashDash : List Char → List Char
  | [] => []
  | [c] => [c]
  | a :: b :: rest =>
    if a = '-' ∧ b = '-' then '-' :: replaceDashDash rest
    else a :: replaceDashDash (b :: rest)

/-- `str::split_once(sep)`: the parts before and after the first
occurrence of `sep`, or none. -/
def splitOnceAt (sep : Char) : List Char → Option (List Char × List Char)
  | [] => none
  | c :: rest =>
    if c = sep then some ([], rest)
    else (splitOnceAt sep rest).map fun p => (c :: p.1, p.2)

/-- If `l` starts with `pat`, the remainder after it. -/
def dropLitChars : List Char → List Char → Option (List Char)
  | [], l => some l
  | _ :: _, [] => none
  | p :: ps, c :: cs => if c = p then dropLitChars ps cs else none

/-- `str::contains(needle)` for a literal needle. -/
def hasSubstr (needle : List Char) : List Char → Bool
  | [] => (dropLitChars needle []).isSome
  | c :: rest => (dropLitChars needle (c :: rest)).isSome || hasSubstr needle rest

/-- The tail of the `PATCH_VERSION_NUMBER_RE` regex after an optional
version: `(?<number>\d+)/(?:\d+)` — a maximal digit run, a slash, and
at least one digit. -/
def matchNumSlash (l : List Char) : Option (List Char) :=
  let (n, r) := l.span Char.isDigit
  if n.isEmpty then none
  else
    match r with
    | c1 :: c2 :: _ => if c1 = '/' ∧ c2.isDigit then some n else none
    | _ => none

/-- The `PATCH_VERSION_NUMBER_RE` regex
`\[PATCH\s+(?:v(?<version>\d+)\s*)?(?<number>\d+)/(?:\d+)` after the
literal `[PATCH`, with the regex crate's leftmost-first (greedy,
backtracking) semantics: the optional `v…` group is preferred; when the
version digits are immediately followed by `/`, backtracking gives the
last digit back to the `number` group. Returns
(version digits if present, number digits). -/
def matchAfterPatchLit (l : List Char) : Option (Option (List Char) × List Char) :=
  let (ws, r1) := l.span isWs
  if ws.isEmpty then none
  else if r1.head? = some 'v' then
    let (ds, r3) := r1.tail.span Char.isDigit
    if ds.isEmpty then none
    else
      let (ws2, r4) := r3.span isWs
      if ws2.isEmpty then
        match r3 with
        | c1 :: c2 :: _ =>
          if c1 = '/' ∧ c2.isDigit ∧ 2 ≤ ds.length then
            some (some ds.dropLast, ds.drop (ds.length - 1))
          else none
        | _ => none
      else (matchNumSlash r4).map fun n => (some ds, n)
  else (matchNumSlash r1).map fun n => (none, n)

/-- The literal `[PATCH` that starts every match of the regex. -/
def patchLit : List Char := ['[', 'P', 'A', 'T', 'C', 'H']

/-- Leftmost match of `PATCH_VERSION_NUMBER_RE` in the subject: scan
every position, try the pattern, first success wins. -/
def findPatchMatch : List Char → Option (Option (List Char) × List Char)
  | [] => none
  | c :: rest =>
    match dropLitChars patchLit (c :: rest) with
    | some r =>
      match matchAfterPatchLit r with
      | some res => some res
      | none => findPatchMatch rest
    | none => findPatchMatch rest

/-- `patch_version_and_subject` from `src/cli/commands/patch/mod.rs`:
the version prefix (`v<N>-` or empty) and the mandatory patch number,
or an `InvalidEvent` decode error when the regex does not match. -/
def patch_version_and_subject (subject : List Char) :
    Except N34Error (List Char × List Char) :=
  match findPatchMatch subject with
  | none =>
    .error (.InvalidEvent ("Can not parse the patch subject `" ++ subject.asString ++ "`"))
  | some (version?, number) =>
    .ok (match version? with
          | some ds => 'v' :: ds ++ ['-']
          | none => [],
         number)

/-- `patch_file_name` from `src/cli/commands/patch/mod.rs`: the text
after the first `]`, trimmed, lowercased, every character outside the
allowed class replaced by `-`, truncated to 60 characters, trimmed of
`-` and whitespace, with one `--` → `-` replacement pass. Fails with an
`InvalidEvent` decode error when the subject has no `]`. -/
def patch_file_name (subject : List Char) : Except N34Error (List Char) :=
  match splitOnceAt ']' subject with
  | none =>
    .error (.InvalidEvent
      ("Invalid patch subject. No `[PATCH ...]`: `" ++ subject.asString ++ "`"))
  | some (_, af) =>
    .ok (replaceDashDash (trimBy isWs (trimBy (· == '-')
      (List.take 60 ((trimBy isWs af).map lowerReplace)))))

/-- `format!("{patch_number:0>4}")`: left-pad the number with `0` to
width 4. -/
def padNum (n : List Char) : List Char := List.replicate (4 - n.length) '0' ++ n

/-- The characters before the last `.` of a name, or none when the name
has no `.`. -/
def lastDotStem : List Char → Option (List Char)
  | [] => none
  | c :: rest =>
    match lastDotStem rest with
    | some stem => some (c :: stem)
    | none => if c = '.' then some [] else none

/-- `PathBuf::with_extension("patch")` on a file name that does not
start with `.` (derived names start with `v` or a digit): the part
after the last `.`, if any, is replaced by `patch`; otherwise `.patch`
is appended. -/
def with_extension_patch (name : List Char) : List Char :=
  match lastDotStem name with
  | some stem => stem ++ ('.' :: "patch".toList)
  | none => name ++ ('.' :: "patch".toList)

/-- The literal `[PATCH]` checked by `GitPatch::filename`'s shortcut. -/
def patchBracketLit : List Char := ['[', 'P', 'A', 'T', 'C', 'H', ']']

/-- `GitPatch::filename` from `src/cli/commands/patch/mod.rs`: subjects
containing the literal `[PATCH]` shortcut to version `""`/number `"1"`;
otherwise the regex supplies them; number `"0"` forces the
`cover-letter` name; the pieces are formatted, `--` is collapsed once
more, and the `.patch` extension is set. The assembly step — the
version prefix, the zero-padded number, a dash and the name, followed
by the final dash collapse and the extension — is `buildPatchFileName`.
-/
def buildPatchFileName (patch_version patch_number patch_name : List Char) : List Char :=
  with_extension_patch (replaceDashDash
    (patch_version ++ padNum patch_number ++ '-' :: patch_name))

/-- `GitPatch::filename` from `src/cli/commands/patch/mod.rs` — see
`buildPatchFileName` above for the assembly step. -/
def GitPatch.filename (subject : List Char) : Except N34Error (List Char) :=
  match (if hasSubstr patchBracketLit subject then .ok ([], ['1'])
         else patch_version_and_subject subject :
         Except N34Error (List Char × List Char)) with
  | .error e => .error e
  | .ok (patch_version, patch_number) =>
    match (if patch_number = ['0'] then .ok "cover-letter".toList
           else patch_file_name subject : Except N34Error (List Char)) with
    | .error e => .error e
    | .ok patch_name => .ok (buildPatchFileName patch_version patch_number patch_name)

/-- `GitPatch::filename` on a `String` subject, producing the file name
as a `String`. -/
def GitPatch.filenameStr (subject : String) : Except N34Error String :=
  (GitPatch.filename subject.toList).map List.asString

/-- The transition guard of `patch apply`
(`src/cli/commands/patch/apply.rs`): applying is refused on
merged/applied, closed and drafted patches, each with its own
`InvalidStatus` message. -/
def applyCheck (patch_status : PatchPrStatus) : Except N34Error Unit :=
  if patch_status.is_merged_or_applied then
    .error (.InvalidStatus "You can't apply an already applied patch")
  else if patch_status.is_closed then
    .error (.InvalidStatus "You can't apply a closed patch")
  else if patch_status.is_drafted then
    .error (.InvalidStatus "You can't apply a drafted patch")
  else .ok ()

/-- The transition guard of `patch merge`
(`src/cli/commands/patch/merge.rs`): merging is refused on
merged/applied, closed and draft patches, each with its own
`InvalidStatus` message. -/
def mergeCheck (patch_status : PatchPrStatus) : Except N34Error Unit :=
  if patch_status.is_merged_or_applied then
    .error (.InvalidStatus "You can't merge an already merged/applied patch")
  else if patch_status.is_closed then
    .error (.InvalidStatus "You can't merge a closed patch")
  else if patch_status.is_drafted then
    .error (.InvalidStatus "You can't merge a draft patch")
  else .ok ()

/-- The status event built by `patch_pr_status_command` (tag set
abridged to the parts the guards protect): the new status kind, the
root reply reference and the authorization mentions. -/
structure StatusEventModel where
  kind : Nat
  tags : List (List String)
deriving DecidableEq, Repr

/-- The guarded core of `patch_pr_status_command`
(`src/cli/common_commands.rs`): resolve the current status via
`fetch_patch_status`, run the transition guard `check_fn` on it, and
only then construct the outgoing status event. An error from the guard
aborts before any event is built. -/
def patch_pr_status_command (events : List NEvent) (root_patch : String)
    (root_revision : Option String) (authorized_pubkeys : List Nat)
    (new_status : PatchPrStatus)
    (check_fn : PatchPrStatus → Except N34Error Unit) :
    Except N34Error StatusEventModel :=
  match fetch_patch_status events root_patch root_revision authorized_pubkeys with
  | .error e => .error e
  | .ok current_status =>
    match check_fn current_status with
    | .error e => .error e
    | .ok _ =>
      .ok { kind := new_status.kind,
            tags := ["e", root_patch, "", "root"] ::
              authorized_pubkeys.map fun p => ["p", toString p] }

/-- Whether the list holds two adjacent dashes. -/
def hasDD : List Char → Bool
  | [] => false
  | [_] => false
  | a :: b :: rest => (a == '-' && b == '-') || hasDD (b :: rest)

/-- Whether the list holds a digit, a slash and a digit in a row — the
observable core of a `number/total` counter. -/
def hasDigitSlashDigit : List Char → Bool
  | a :: b :: c :: rest => (a.isDigit && b == '/' && c.isDigit) || hasDigitSlashDigit (b :: c :: rest)
  | _ => false

/-- Modelled from the spec: the slug collapse step as the spec words it
— "runs of characters other than ASCII alphanumerics, `.`, `-`, `_`
collapsed to a single `-`" (each maximal run of disallowed characters
becomes one dash; allowed characters, including literal dashes, are
kept). -/
def collapseRuns : List Char → List Char
  | [] => []
  | [c] => if allowedChar c then [c] else ['-']
  | c :: d :: rest =>
    if allowedChar c then c :: collapseRuns (d :: rest)
    else if allowedChar d then '-' :: collapseRuns (d :: rest)
    else collapseRuns (d :: rest)

/-- Modelled from the spec: the slug as claim C7 words it — the subject
text after the first `]`, lowercased, runs of disallowed characters
collapsed to single `-`, truncated to 60 characters, trimmed of leading
and trailing `-`. -/
def claimSlug (af : List Char) : List Char :=
  trimBy (· == '-') (List.take 60 (collapseRuns (af.map Char.toLower)))

/-- Modelled from the spec: the full file name as claim C7 words it —
`<version-prefix><4-digit-zero-padded-number>-<slug>.patch`. -/
def claimFileName (version number af : List Char) : List Char :=
  version ++ padNum number ++ '-' :: claimSlug af ++ ('.' :: "patch".toList)

theorem mem_dedupConsecutive {α : Type} [DecidableEq α] {a : α} :
    ∀ {l : List α}, a ∈ dedupConsecutive l ↔ a ∈ l
  | [] => by simp [dedupConsecutive]
  | [b] => by simp [dedupConsecutive]
  | b :: c :: rest => by
    by_cases h : b = c
    · subst h
      rw [dedupConsecutive, if_pos rfl, mem_dedupConsecutive (l := b :: rest)]
      simp
    · rw [dedupConsecutive, if_neg h]
      simp [mem_dedupConsecutive (l := c :: rest)]

theorem mem_dedup {α : Type} [LinearOrder α] {a : α} {l : List α} :
    a ∈ dedup l ↔ a ∈ l := by
  unfold dedup
  rw [mem_dedupConsecutive]
  exact (List.perm_insertionSort _ _).mem_iff

theorem contains_eq_false_of_not_mem {a : Nat} {l : List Nat} (h : a ∉ l) :
    l.contains a = false :=
  Bool.eq_false_iff.mpr fun hb => h (List.elem_iff.mp hb)

theorem contains_eq_true_of_mem {a : Nat} {l : List Nat} (h : a ∈ l) :
    l.contains a = true :=
  List.elem_iff.mpr h

theorem perm_pair_eq {α : Type} {a b : α} {l : List α} (h : List.Perm l [a, b]) :
    l = [a, b] ∨ l = [b, a] := by
  obtain ⟨x, y, rfl⟩ : ∃ x y, l = [x, y] := by
    match l, h.length_eq with
    | [x, y], _ => exact ⟨x, y, rfl⟩
  have ha : a ∈ [x, y] := h.mem_iff.mpr (by simp)
  simp only [List.mem_cons, List.mem_singleton, List.not_mem_nil, or_false] at ha
  rcases ha with rfl | rfl
  · left
    have hy : y = b := by simpa using List.perm_singleton.mp h.cons_inv
    rw [hy]
  · right
    have hswap : List.Perm [x, a] [a, x] := List.Perm.swap a x []
    have hx : x = b := by simpa using List.perm_singleton.mp (hswap.symm.trans h).cons_inv
    rw [hx]

/-- C9: within each entity family the status-to-kind mapping round
trips (decode ∘ encode = id), distinct statuses map to distinct kinds,
and decoding a kind outside the family's fixed kind set fails with the
family's typed decode error instead of silently defaulting. -/
theorem status_kind_round_trip_bijective :
    (∀ s : IssueStatus, IssueStatus.try_from s.kind = .ok s) ∧
    (∀ s : PatchPrStatus, PatchPrStatus.try_from s.kind = .ok s) ∧
    (∀ s t : IssueStatus, s.kind = t.kind → s = t) ∧
    (∀ s t : PatchPrStatus, s.kind = t.kind → s = t) ∧
    (∀ k : Nat, k ∉ [gitStatusOpen, gitStatusApplied, gitStatusClosed] →
      IssueStatus.try_from k = .error (.InvalidIssueStatus k)) ∧
    (∀ k : Nat, k ∉ PatchPrStatus.all_kinds →
      PatchPrStatus.try_from k = .error (.InvalidPatchStatus k)) := by
  refine ⟨fun s => by cases s <;> rfl, fun s => by cases s <;> rfl,
    fun s t h => ?_, fun s t h => ?_, fun k hk => ?_, fun k hk => ?_⟩
  · cases s <;> cases t <;> first | rfl | simp [IssueStatus.kind, gitStatusOpen,
      gitStatusApplied, gitStatusClosed] at h
  · cases s <;> cases t <;> first | rfl | simp [PatchPrStatus.kind, gitStatusOpen,
      gitStatusApplied, gitStatusClosed, gitStatusDraft] at h
  · simp only [List.mem_cons, List.mem_singleton, List.not_mem_nil, or_false,
      not_or] at hk
    obtain ⟨h1, h2, h3⟩ := hk
    simp [IssueStatus.try_from, h1, h2, h3]
  · simp only [PatchPrStatus.all_kinds, PatchPrStatus.kind, List.mem_cons,
      List.mem_singleton, List.not_mem_nil, or_false, not_or] at hk
    obtain ⟨h1, h2, h3, h4⟩ := hk
    simp [PatchPrStatus.try_from, h1, h2, h3, h4]

/-- C9 witness: the theorem applied at `Resolved`, `Draft`, and at the
out-of-family kind 1634. -/
theorem status_kind_round_trip_bijective_witness :
    IssueStatus.try_from (IssueStatus.Resolved.kind) = .ok .Resolved ∧
    PatchPrStatus.try_from (PatchPrStatus.Draft.kind) = .ok .Draft ∧
    IssueStatus.try_from 1634 = .error (.InvalidIssueStatus 1634) ∧
    PatchPrStatus.try_from 1634 = .error (.InvalidPatchStatus 1634) :=
  ⟨status_kind_round_trip_bijective.1 .Resolved,
   status_kind_round_trip_bijective.2.1 .Draft,
   status_kind_round_trip_bijective.2.2.2.2.1 1634 (by decide),
   status_kind_round_trip_bijective.2.2.2.2.2 1634 (by decide)⟩

/-- C4: when the authorized status query comes back empty, every status
resolver returns `Ok Open` — the default is `Open` and absence of
status events is not an error. -/
theorem status_default_open (events : List NEvent) (subject : String)
    (authorized : List Nat) (root_revision : Option String)
    (hIssue : statusFilter events subject
      [gitStatusOpen, gitStatusApplied, gitStatusClosed] (dedup authorized) = [])
    (hPatch : statusFilter events subject PatchPrStatus.all_kinds (dedup authorized) = []) :
    fetch_issue_status events subject authorized = .ok .Open ∧
    fetch_pr_status events subject authorized = .ok .Open ∧
    fetch_patch_status events subject root_revision authorized = .ok .Open := by
  unfold fetch_issue_status fetch_pr_status fetch_patch_status
  rw [hIssue, hPatch]
  exact ⟨rfl, rfl, rfl⟩

/-- C4 witness: the theorem applied to the empty event store. -/
theorem status_default_open_witness :
    fetch_issue_status [] "root" [7] = .ok .Open ∧
    fetch_pr_status [] "root" [7] = .ok .Open ∧
    fetch_patch_status [] "root" (some "rev") [7] = .ok .Open :=
  status_default_open [] "root" [7] (some "rev") rfl rfl

theorem statusFilter_drop_unauthorized (l₁ l₂ : List NEvent) (e : NEvent)
    (subject : String) (kinds : List Nat) (authorized : List Nat)
    (h : e.pubkey ∉ authorized) :
    statusFilter (l₁ ++ e :: l₂) subject kinds (dedup authorized) =
      statusFilter (l₁ ++ l₂) subject kinds (dedup authorized) := by
  have hc : (dedup authorized).contains e.pubkey = false :=
    contains_eq_false_of_not_mem fun hm => h (mem_dedup.mp hm)
  unfold statusFilter
  rw [List.filter_append, List.filter_append, List.filter_cons]
  simp
  intro _ _ hm
  exact h (mem_dedup.mp hm)

/-- C3: a status event whose author is outside the authorized signer
set never affects the resolved status — inserting it anywhere in the
event store leaves all three status resolvers unchanged, regardless of
its creation timestamp. -/
theorem unauthorized_exclusion (l₁ l₂ : List NEvent) (e : NEvent) (subject : String)
    (root_revision : Option String) (authorized : List Nat)
    (h : e.pubkey ∉ authorized) :
    fetch_issue_status (l₁ ++ e :: l₂) subject authorized =
      fetch_issue_status (l₁ ++ l₂) subject authorized ∧
    fetch_pr_status (l₁ ++ e :: l₂) subject authorized =
      fetch_pr_status (l₁ ++ l₂) subject authorized ∧
    fetch_patch_status (l₁ ++ e :: l₂) subject root_revision authorized =
      fetch_patch_status (l₁ ++ l₂) subject root_revision authorized := by
  unfold fetch_issue_status fetch_pr_status fetch_patch_status
  rw [statusFilter_drop_unauthorized l₁ l₂ e subject _ authorized h,
    statusFilter_drop_unauthorized l₁ l₂ e subject _ authorized h]
  exact ⟨rfl, rfl, rfl⟩

/-- C3 witness: an unauthorized `Closed` status event with the greatest
timestamp, prepended to a store holding one authorized `Open` event,
changes nothing. -/
theorem unauthorized_exclusion_witness :
    fetch_issue_status
        ([] ++ ⟨99, 500, 1632, [["e", "root"]]⟩ ::
          [⟨7, 100, 1630, [["e", "root"]]⟩]) "root" [7] =
      fetch_issue_status ([] ++ [⟨7, 100, 1630, [["e", "root"]]⟩]) "root" [7] ∧
    fetch_pr_status
        ([] ++ ⟨99, 500, 1632, [["e", "root"]]⟩ ::
          [⟨7, 100, 1630, [["e", "root"]]⟩]) "root" [7] =
      fetch_pr_status ([] ++ [⟨7, 100, 1630, [["e", "root"]]⟩]) "root" [7] ∧
    fetch_patch_status
        ([] ++ ⟨99, 500, 1632, [["e", "root"]]⟩ ::
          [⟨7, 100, 1630, [["e", "root"]]⟩]) "root" (some "rev") [7] =
      fetch_patch_status ([] ++ [⟨7, 100, 1630, [["e", "root"]]⟩]) "root" (some "rev")
        [7] :=
  unauthorized_exclusion [] [⟨7, 100, 1630, [["e", "root"]]⟩]
    ⟨99, 500, 1632, [["e", "root"]]⟩ "root" (some "rev") [7] (by decide)

/-- C1: when the winning authorized status event for the root patch
decodes to merged/applied, resolving the status of a root-revision
returns `Closed` unless that event carries a reply-marked `e` reference
whose content is the revision's id, in which case the result stays
merged/applied. -/
theorem revision_closure (events : List NEvent) (root_patch revision_id : String)
    (authorized : List Nat) (w : NEvent)
    (hmax : maxByCreatedAt (statusFilter events root_patch PatchPrStatus.all_kinds
      (dedup authorized)) = some w)
    (hdec : PatchPrStatus.try_from w.kind = .ok .MergedApplied) :
    ((w.tags.any fun t => isReplyRefTo t revision_id) = false →
      fetch_patch_status events root_patch (some revision_id) authorized = .ok .Closed) ∧
    ((w.tags.any fun t => isReplyRefTo t revision_id) = true →
      fetch_patch_status events root_patch (some revision_id) authorized =
        .ok .MergedApplied) := by
  unfold fetch_patch_status
  rw [hmax]
  simp only [hdec]
  constructor <;> intro h <;> simp [h, PatchPrStatus.is_merged_or_applied]

/-- C1 witness: a merged status event on the root that reply-references
revision "aa" but not revision "bb": resolving "bb" gives `Closed`,
resolving "aa" stays merged/applied. -/
theorem revision_closure_witness :
    fetch_patch_status [⟨7, 100, 1631, [["e", "root", "", "root"], ["e", "aa", "", "reply"]]⟩]
      "root" (some "bb") [7] = .ok .Closed ∧
    fetch_patch_status [⟨7, 100, 1631, [["e", "root", "", "root"], ["e", "aa", "", "reply"]]⟩]
      "root" (some "aa") [7] = .ok .MergedApplied :=
  ⟨(revision_closure [⟨7, 100, 1631, [["e", "root", "", "root"], ["e", "aa", "", "reply"]]⟩]
      "root" "bb" [7] ⟨7, 100, 1631, [["e", "root", "", "root"], ["e", "aa", "", "reply"]]⟩
      rfl rfl).1 (by decide),
   (revision_closure [⟨7, 100, 1631, [["e", "root", "", "root"], ["e", "aa", "", "reply"]]⟩]
      "root" "aa" [7] ⟨7, 100, 1631, [["e", "root", "", "root"], ["e", "aa", "", "reply"]]⟩
      rfl rfl).2 (by decide)⟩

/-- C6: when the freshly resolved status is merged/applied, the apply
command's guard rejects with its transition-specific error; when it is
closed or draft, the merge command's guard rejects likewise — in each
case `patch_pr_status_command` returns the error before any status
event is constructed (its result carries no event). -/
theorem illegal_transition_guards (events : List NEvent) (root_patch : String)
    (root_revision : Option String) (authorized : List Nat)
    (new_status : PatchPrStatus) :
    (fetch_patch_status events root_patch root_revision authorized = .ok .MergedApplied →
      patch_pr_status_command events root_patch root_revision authorized new_status applyCheck
        = .error (.InvalidStatus "You can't apply an already applied patch")) ∧
    (fetch_patch_status events root_patch root_revision authorized = .ok .Closed →
      patch_pr_status_command events root_patch root_revision authorized new_status mergeCheck
        = .error (.InvalidStatus "You can't merge a closed patch")) ∧
    (fetch_patch_status events root_patch root_revision authorized = .ok .Draft →
      patch_pr_status_command events root_patch root_revision authorized new_status mergeCheck
        = .error (.InvalidStatus "You can't merge a draft patch")) := by
  refine ⟨fun h => ?_, fun h => ?_, fun h => ?_⟩ <;>
    · unfold patch_pr_status_command
      rw [h]
      rfl

/-- C6 witness: concrete stores resolving to merged/applied, closed and
draft, on which apply and merge are rejected with their specific
errors. -/
theorem illegal_transition_guards_witness :
    patch_pr_status_command [⟨7, 100, 1631, [["e", "root"]]⟩] "root" none [7]
        .MergedApplied applyCheck
      = .error (.InvalidStatus "You can't apply an already applied patch") ∧
    patch_pr_status_command [⟨7, 100, 1632, [["e", "root"]]⟩] "root" none [7]
        .MergedApplied mergeCheck
      = .error (.InvalidStatus "You can't merge a closed patch") ∧
    patch_pr_status_command [⟨7, 100, 1633, [["e", "root"]]⟩] "root" none [7]
        .MergedApplied mergeCheck
      = .error (.InvalidStatus "You can't merge a draft patch") :=
  ⟨(illegal_transition_guards [⟨7, 100, 1631, [["e", "root"]]⟩] "root" none [7]
      .MergedApplied).1 rfl,
   (illegal_transition_guards [⟨7, 100, 1632, [["e", "root"]]⟩] "root" none [7]
      .MergedApplied).2.1 rfl,
   (illegal_transition_guards [⟨7, 100, 1633, [["e", "root"]]⟩] "root" none [7]
      .MergedApplied).2.2 rfl⟩

/-- C2: with two authorized status events addressed to the same entity,
`Open` at timestamp 100 and `Closed` at timestamp 200, status
resolution returns `Closed` for every arrival order of the fetched
events — the reduction is by maximal creation timestamp, not by
position in the fetched list. -/
theorem status_recency (e1 e2 : NEvent) (fetched : List NEvent)
    (subject : String) (authorized : List Nat)
    (hperm : List.Perm fetched [e1, e2])
    (ht1 : e1.created_at = 100) (ht2 : e2.created_at = 200)
    (hk1 : e1.kind = gitStatusOpen) (hk2 : e2.kind = gitStatusClosed)
    (hr1 : refsEventId e1 subject = true) (hr2 : refsEventId e2 subject = true)
    (ha1 : e1.pubkey ∈ authorized) (ha2 : e2.pubkey ∈ authorized) :
    fetch_pr_status fetched subject authorized = .ok .Closed ∧
    fetch_issue_status fetched subject authorized = .ok .Closed := by
  have hc1 : (dedup authorized).contains e1.pubkey = true :=
    contains_eq_true_of_mem (mem_dedup.mpr ha1)
  have hc2 : (dedup authorized).contains e2.pubkey = true :=
    contains_eq_true_of_mem (mem_dedup.mpr ha2)
  have hdm1 : e1.pubkey ∈ dedup authorized := mem_dedup.mpr ha1
  have hdm2 : e2.pubkey ∈ dedup authorized := mem_dedup.mpr ha2
  have main : ∀ l, l = [e1, e2] ∨ l = [e2, e1] →
      fetch_pr_status l subject authorized = .ok .Closed ∧
      fetch_issue_status l subject authorized = .ok .Closed := by
    intro l hl
    have hfp : statusFilter l subject PatchPrStatus.all_kinds (dedup authorized) = l := by
      rcases hl with rfl | rfl <;>
        simp [statusFilter, List.filter_cons, hr1, hr2, hk1, hk2, hdm1, hdm2,
          PatchPrStatus.all_kinds, PatchPrStatus.kind, gitStatusOpen, gitStatusApplied,
          gitStatusClosed, gitStatusDraft]
    have hfi : statusFilter l subject [gitStatusOpen, gitStatusApplied, gitStatusClosed]
        (dedup authorized) = l := by
      rcases hl with rfl | rfl <;>
        simp [statusFilter, List.filter_cons, hr1, hr2, hk1, hk2, hdm1, hdm2,
          gitStatusOpen, gitStatusApplied, gitStatusClosed]
    have hm : maxByCreatedAt l = some e2 := by
      rcases hl with rfl | rfl <;> simp [maxByCreatedAt, ht1, ht2]
    unfold fetch_pr_status fetch_issue_status
    rw [hfp, hfi, hm]
    simp [hk2, PatchPrStatus.try_from, IssueStatus.try_from, gitStatusOpen,
      gitStatusApplied, gitStatusClosed, gitStatusDraft]
  exact main fetched (perm_pair_eq hperm)

/-- C2 witness: the theorem applied with the `Closed` event arriving
first in the fetched list (the reversed arrival order). -/
theorem status_recency_witness :
    fetch_pr_status [⟨8, 200, 1632, [["e", "root"]]⟩, ⟨7, 100, 1630, [["e", "root"]]⟩]
      "root" [7, 8] = .ok .Closed ∧
    fetch_issue_status [⟨8, 200, 1632, [["e", "root"]]⟩, ⟨7, 100, 1630, [["e", "root"]]⟩]
      "root" [7, 8] = .ok .Closed :=
  status_recency ⟨7, 100, 1630, [["e", "root"]]⟩ ⟨8, 200, 1632, [["e", "root"]]⟩
    [⟨8, 200, 1632, [["e", "root"]]⟩, ⟨7, 100, 1630, [["e", "root"]]⟩] "root" [7, 8]
    (List.Perm.swap _ _ _) rfl rfl rfl rfl (by decide) (by decide)
    (by decide) (by decide)

theorem dedupConsecutive_sublist {α : Type} [DecidableEq α] :
    ∀ l : List α, List.Sublist (dedupConsecutive l) l
  | [] => by simp [dedupConsecutive]
  | [a] => by simp [dedupConsecutive]
  | a :: b :: rest => by
    by_cases h : a = b
    · rw [dedupConsecutive, if_pos h]
      exact (dedupConsecutive_sublist (b :: rest)).cons a
    · rw [dedupConsecutive, if_neg h]
      exact (dedupConsecutive_sublist (b :: rest)).cons₂ a

theorem nodup_dedupConsecutive {α : Type} [LinearOrder α] :
    ∀ {l : List α}, List.Sorted (· ≤ ·) l → (dedupConsecutive l).Nodup
  | [], _ => by simp [dedupConsecutive]
  | [a], _ => by simp [dedupConsecutive]
  | a :: b :: rest, h => by
    have htail : List.Sorted (· ≤ ·) (b :: rest) := h.of_cons
    have hab : a ≤ b := List.rel_of_sorted_cons h b (by simp)
    by_cases hEq : a = b
    · rw [dedupConsecutive, if_pos hEq]
      exact nodup_dedupConsecutive htail
    · rw [dedupConsecutive, if_neg hEq]
      refine List.nodup_cons.mpr ⟨fun hmem => ?_, nodup_dedupConsecutive htail⟩
      have hmem' : a ∈ b :: rest := mem_dedupConsecutive.mp hmem
      have hba : b ≤ a := by
        rcases List.mem_cons.mp hmem' with rfl | hr
        · exact le_refl a
        · exact List.rel_of_sorted_cons htail a hr
      exact hEq (le_antisymm hab hba)

theorem sorted_dedup {α : Type} [LinearOrder α] (l : List α) :
    List.Sorted (· ≤ ·) (dedup l) :=
  (List.sorted_insertionSort _ l).sublist (dedupConsecutive_sublist _)

theorem nodup_dedup {α : Type} [LinearOrder α] (l : List α) :
    (dedup l).Nodup :=
  nodup_dedupConsecutive (List.sorted_insertionSort _ l)

/-- C5 counterexample: with relay 2 seen before relay 1, the merge
yields the sorted list `[1, 2]`, not the first-seen order `[2, 1]` —
`dedup` sorts before removing duplicates, so first-seen order is not
preserved. -/
theorem relay_merge_not_first_seen :
    mergeRelays [[2], [1]] = ([1, 2] : List Nat) ∧
    mergeRelays [[2], [1]] ≠ ([2, 1] : List Nat) := by
  constructor <;> decide

/-- C5 (amended): merging relay-url lists is deterministic (it is a
pure function of the concatenated input), the output has no duplicates
and contains exactly the distinct URLs of the concatenated input, but
it is emitted in ascending URL order, not in first-seen order. -/
theorem relay_merge_deterministic_sorted_nodup {α : Type} [LinearOrder α]
    (sources : List (List α)) :
    (mergeRelays sources).Nodup ∧
    List.Sorted (· ≤ ·) (mergeRelays sources) ∧
    ∀ x, x ∈ mergeRelays sources ↔ x ∈ sources.flatten :=
  ⟨nodup_dedup _, sorted_dedup _, fun _ => mem_dedup⟩

theorem dropLitChars_eq_append :
    ∀ {p l r : List Char}, dropLitChars p l = some r → l = p ++ r := by
  intro p
  induction p with
  | nil =>
    intro l r h
    simp [dropLitChars] at h
    simp [h]
  | cons q qs ih =>
    intro l r h
    match l with
    | [] => simp [dropLitChars] at h
    | c :: cs =>
      rw [dropLitChars] at h
      by_cases hc : c = q
      · rw [if_pos hc] at h
        subst hc
        simpa using ih h
      · rw [if_neg hc] at h
        exact absurd h (by simp)

theorem hasSubstr_mem {needle : List Char} :
    ∀ {l : List Char}, hasSubstr needle l = true → ∀ c ∈ needle, c ∈ l := by
  intro l
  induction l with
  | nil =>
    intro h c hc
    cases needle with
    | nil => cases hc
    | cons q qs => simp [hasSubstr, dropLitChars] at h
  | cons x xs ih =>
    intro h c hc
    rw [hasSubstr, Bool.or_eq_true] at h
    rcases h with h | h
    · obtain ⟨r, hr⟩ := Option.isSome_iff_exists.mp h
      rw [dropLitChars_eq_append hr]
      exact List.mem_append.mpr (Or.inl hc)
    · exact List.mem_cons_of_mem x (ih h c hc)

theorem splitOnceAt_isSome_of_mem {c : Char} :
    ∀ {l : List Char}, c ∈ l → (splitOnceAt c l).isSome = true := by
  intro l
  induction l with
  | nil => intro h; cases h
  | cons x xs ih =>
    intro h
    rw [splitOnceAt]
    by_cases hx : x = c
    · rw [if_pos hx]; rfl
    · rw [if_neg hx]
      rcases List.mem_cons.mp h with h1 | h2
      · exact absurd h1.symm hx
      · have h3 := ih h2
        cases hs : splitOnceAt c xs with
        | none => rw [hs] at h3; simp at h3
        | some p => simp

theorem replaceDashDash_cons_nondash {a : Char} (ha : a ≠ '-') :
    ∀ t, replaceDashDash (a :: t) = a :: replaceDashDash t
  | [] => rfl
  | b :: t => by
    rw [replaceDashDash, if_neg (fun h => ha h.1)]

theorem replaceDashDash_dash_cons :
    ∀ t : List Char, ∃ u, replaceDashDash ('-' :: t) = '-' :: u
  | [] => ⟨[], rfl⟩
  | b :: t => by
    by_cases hb : b = '-'
    · subst hb
      exact ⟨replaceDashDash t, by rw [replaceDashDash, if_pos ⟨rfl, rfl⟩]⟩
    · exact ⟨replaceDashDash (b :: t), by rw [replaceDashDash, if_neg (fun h => hb h.2)]⟩

theorem hasDD_cons_false {a : Char} {t : List Char} (h : hasDD (a :: t) = false) :
    hasDD t = false := by
  cases t with
  | nil => rfl
  | cons b r =>
    rw [hasDD, Bool.or_eq_false_iff] at h
    exact h.2

theorem hasDD_append_right {u v : List Char} (h : hasDD (u ++ v) = false) :
    hasDD v = false := by
  induction u with
  | nil => exact h
  | cons a u ih => exact ih (hasDD_cons_false h)

theorem hasDD_append_left :
    ∀ {u v : List Char}, hasDD (u ++ v) = false → hasDD u = false
  | [], _, _ => rfl
  | [_], _, _ => rfl
  | a :: b :: u, v, h => by
    rw [List.cons_append, List.cons_append, hasDD, Bool.or_eq_false_iff] at h
    rw [hasDD, h.1, Bool.false_or]
    exact hasDD_append_left (u := b :: u) (v := v) (by rw [List.cons_append]; exact h.2)

theorem replaceDashDash_eq_self :
    ∀ {l : List Char}, hasDD l = false → replaceDashDash l = l
  | [], _ => rfl
  | [_], _ => rfl
  | a :: b :: rest, h => by
    rw [hasDD, Bool.or_eq_false_iff] at h
    have hcond : ¬(a = '-' ∧ b = '-') := by
      intro hab
      rw [hab.1, hab.2] at h
      simp at h
    rw [replaceDashDash, if_neg hcond, replaceDashDash_eq_self h.2]

theorem dropWhile_suffix_decomp (p : Char → Bool) (l : List Char) :
    ∃ u, l = u ++ l.dropWhile p :=
  ⟨l.takeWhile p, (List.takeWhile_append_dropWhile p l).symm⟩

theorem trimBy_prefix_decomp (p : Char → Bool) (l : List Char) :
    ∃ w, l.dropWhile p = trimBy p l ++ w := by
  unfold trimBy
  obtain ⟨u, hu⟩ : ∃ u, (l.dropWhile p).reverse = u ++ (l.dropWhile p).reverse.dropWhile p :=
    ⟨_, (List.takeWhile_append_dropWhile p _).symm⟩
  refine ⟨u.reverse, ?_⟩
  calc l.dropWhile p = (l.dropWhile p).reverse.reverse := (List.reverse_reverse _).symm
    _ = (u ++ (l.dropWhile p).reverse.dropWhile p).reverse := by rw [← hu]
    _ = ((l.dropWhile p).reverse.dropWhile p).reverse ++ u.reverse := by
        rw [List.reverse_append]

theorem trimBy_decomp (p : Char → Bool) (l : List Char) :
    ∃ u w, l = u ++ (trimBy p l ++ w) := by
  obtain ⟨u, hu⟩ := dropWhile_suffix_decomp p l
  obtain ⟨w, hw⟩ := trimBy_prefix_decomp p l
  exact ⟨u, w, hu.trans (congrArg (fun z => u ++ z) hw)⟩

theorem hasDD_trimBy {p : Char → Bool} {l : List Char} (h : hasDD l = false) :
    hasDD (trimBy p l) = false := by
  obtain ⟨u, w, huw⟩ := trimBy_decomp p l
  rw [huw] at h
  exact hasDD_append_left (hasDD_append_right h)

theorem mem_trimBy {p : Char → Bool} {c : Char} {l : List Char}
    (h : c ∈ trimBy p l) : c ∈ l := by
  obtain ⟨u, w, huw⟩ := trimBy_decomp p l
  rw [huw]
  exact List.mem_append.mpr (Or.inr (List.mem_append.mpr (Or.inl h)))

theorem trimBy_head_false {p : Char → Bool} {l : List Char} {c : Char} {rest : List Char}
    (h : trimBy p l = c :: rest) : p c = false := by
  obtain ⟨w, hw⟩ := trimBy_prefix_decomp p l
  rw [h, List.cons_append] at hw
  have := List.head?_dropWhile_not p l
  rw [hw] at this
  simpa using this

theorem dropWhile_eq_self_of_all {p : Char → Bool} {l : List Char}
    (h : ∀ c ∈ l, p c = false) : l.dropWhile p = l := by
  cases l with
  | nil => rfl
  | cons x xs =>
    rw [List.dropWhile_cons, h x (List.mem_cons_self _ _)]
    simp

theorem trimBy_eq_self_of_all {p : Char → Bool} {l : List Char}
    (h : ∀ c ∈ l, p c = false) : trimBy p l = l := by
  unfold trimBy
  rw [dropWhile_eq_self_of_all h,
    dropWhile_eq_self_of_all (fun c hc => h c (List.mem_reverse.mp hc)),
    List.reverse_reverse]

theorem lastDotStem_eq_none {l : List Char} (h : '.' ∉ l) : lastDotStem l = none := by
  induction l with
  | nil => rfl
  | cons c rest ih =>
    rw [lastDotStem, ih fun hm => h (List.mem_cons_of_mem _ hm),
      if_neg fun hc => h (by rw [hc]; exact List.mem_cons_self _ _)]

theorem lastDotStem_append {x t : List Char} (h : '.' ∉ x) :
    lastDotStem (x ++ t) = (lastDotStem t).map (x ++ ·) := by
  induction x with
  | nil =>
    rw [List.nil_append]
    cases lastDotStem t <;> simp
  | cons c rest ih =>
    have hc : c ≠ '.' := fun hc => h (by rw [hc]; exact List.mem_cons_self _ _)
    rw [List.cons_append, lastDotStem, ih fun hm => h (List.mem_cons_of_mem _ hm)]
    cases lastDotStem t with
    | none => simp [hc]
    | some stem => simp

theorem with_extension_append_left {x t : List Char} (h : '.' ∉ x) :
    with_extension_patch (x ++ t) = x ++ with_extension_patch t := by
  unfold with_extension_patch
  rw [lastDotStem_append h]
  cases lastDotStem t with
  | none => simp
  | some stem => simp

theorem with_extension_of_no_dot {l : List Char} (h : '.' ∉ l) :
    with_extension_patch l = l ++ ('.' :: "patch".toList) := by
  unfold with_extension_patch
  rw [lastDotStem_eq_none h]

theorem filename_reduction_shortcut {s slug : List Char}
    (h : hasSubstr patchBracketLit s = true)
    (hpfn : patch_file_name s = .ok slug) :
    GitPatch.filename s = .ok (buildPatchFileName [] ['1'] slug) := by
  have hred : GitPatch.filename s =
      match patch_file_name s with
      | .error e => .error e
      | .ok name => .ok (buildPatchFileName [] ['1'] name) := by
    unfold GitPatch.filename
    rw [if_pos h]
    rfl
  rw [hred, hpfn]

/-- C10: any subject containing the literal `[PATCH]` derives a
filename without consulting the `number/total` counter: the derivation
succeeds and the name starts with `0001-` (patch number 1, empty
version prefix); e.g. `"[PATCH] chore: a to abc"` derives
`0001-chore-a-to-abc.patch`. -/
theorem implicit_patch_shortcut (s : List Char)
    (h : hasSubstr patchBracketLit s = true) :
    (∃ t, GitPatch.filename s = .ok ('0' :: '0' :: '0' :: '1' :: '-' :: t)) ∧
    GitPatch.filenameStr "[PATCH] chore: a to abc" =
      .ok "0001-chore-a-to-abc.patch" := by
  refine ⟨?_, by rfl⟩
  have hrb : ']' ∈ s := hasSubstr_mem h ']' (by decide)
  obtain ⟨⟨before, af⟩, hp⟩ : ∃ p, splitOnceAt ']' s = some p := by
    have h2 := splitOnceAt_isSome_of_mem hrb
    cases hq : splitOnceAt ']' s with
    | none => rw [hq] at h2; simp at h2
    | some p => exact ⟨p, rfl⟩
  have hpfn : patch_file_name s = .ok (replaceDashDash (trimBy isWs (trimBy (· == '-')
      (List.take 60 ((trimBy isWs af).map lowerReplace))))) := by
    unfold patch_file_name
    rw [hp]
  set slug := replaceDashDash (trimBy isWs (trimBy (· == '-')
      (List.take 60 ((trimBy isWs af).map lowerReplace)))) with hslug
  obtain ⟨u, hu⟩ := replaceDashDash_dash_cons slug
  have hbuild : buildPatchFileName [] ['1'] slug =
      ['0', '0', '0', '1', '-'] ++ with_extension_patch u := by
    unfold buildPatchFileName
    have e1 : (([] : List Char) ++ padNum ['1'] ++ '-' :: slug) =
        '0' :: '0' :: '0' :: '1' :: '-' :: slug := rfl
    rw [e1, replaceDashDash_cons_nondash (by decide),
      replaceDashDash_cons_nondash (by decide), replaceDashDash_cons_nondash (by decide),
      replaceDashDash_cons_nondash (by decide), hu]
    have e2 : ('0' :: '0' :: '0' :: '1' :: '-' :: u : List Char) =
        ['0', '0', '0', '1', '-'] ++ u := rfl
    rw [e2, with_extension_append_left (by decide)]
  exact ⟨with_extension_patch u,
    by rw [filename_reduction_shortcut h hpfn, hbuild]; rfl⟩

/-- C10 witness: the theorem applied at the subject
`"[PATCH] chore: a to abc"`. -/
theorem implicit_patch_shortcut_witness :
    (∃ t, GitPatch.filename "[PATCH] chore: a to abc".toList =
      .ok ('0' :: '0' :: '0' :: '1' :: '-' :: t)) ∧
    GitPatch.filenameStr "[PATCH] chore: a to abc" =
      .ok "0001-chore-a-to-abc.patch" :=
  implicit_patch_shortcut "[PATCH] chore: a to abc".toList (by decide)

theorem dropLitChars_of_eq : ∀ (p m : List Char), dropLitChars p (p ++ m) = some m
  | [], m => by simp [dropLitChars]
  | q :: qs, m => by
    rw [List.cons_append, dropLitChars, if_pos rfl]
    exact dropLitChars_of_eq qs m

theorem hasSubstr_of_append {p q : List Char} :
    ∀ {l : List Char}, hasSubstr (p ++ q) l = true → hasSubstr p l = true := by
  intro l
  induction l with
  | nil =>
    intro h
    rw [hasSubstr] at h ⊢
    obtain ⟨r, hr⟩ := Option.isSome_iff_exists.mp h
    have := dropLitChars_eq_append hr
    match p, q, this with
    | [], [], _ => simp [dropLitChars]
  | cons x xs ih =>
    intro h
    rw [hasSubstr, Bool.or_eq_true] at h ⊢
    rcases h with h | h
    · obtain ⟨r, hr⟩ := Option.isSome_iff_exists.mp h
      have hl : x :: xs = p ++ (q ++ r) := by
        rw [← List.append_assoc]
        exact dropLitChars_eq_append hr
      left
      rw [hl, dropLitChars_of_eq]
      rfl
    · exact Or.inr (ih h)

theorem hasDigitSlashDigit_cons {c : Char} {t : List Char}
    (h : hasDigitSlashDigit t = true) : hasDigitSlashDigit (c :: t) = true := by
  match t with
  | [] => simp [hasDigitSlashDigit] at h
  | [x] => simp [hasDigitSlashDigit] at h
  | a :: b :: r =>
    rw [hasDigitSlashDigit, h]
    simp

theorem hasDigitSlashDigit_append {v : List Char} (h : hasDigitSlashDigit v = true) :
    ∀ u : List Char, hasDigitSlashDigit (u ++ v) = true
  | [] => h
  | c :: u => by
    rw [List.cons_append]
    exact hasDigitSlashDigit_cons (hasDigitSlashDigit_append h u)

theorem dsd_of_digits_slash :
    ∀ (n : List Char) {c2 : Char} {t : List Char},
      (∀ c ∈ n, c.isDigit = true) → c2.isDigit = true → n ≠ [] →
      hasDigitSlashDigit (n ++ '/' :: c2 :: t) = true
  | [], _, _, _, _, hne => absurd rfl hne
  | [d], c2, t, hdig, hc2, _ => by
    simp [hasDigitSlashDigit, hdig d (by simp), hc2]
  | d :: d' :: n', c2, t, hdig, hc2, _ => by
    rw [List.cons_append]
    exact hasDigitSlashDigit_cons
      (dsd_of_digits_slash (d' :: n')
        (fun c hc => hdig c (List.mem_cons_of_mem _ hc)) hc2 (by simp))

theorem matchNumSlash_dsd {l n : List Char} (h : matchNumSlash l = some n) :
    hasDigitSlashDigit l = true := by
  unfold matchNumSlash at h
  simp only [List.span_eq_take_drop] at h
  by_cases hn : (l.takeWhile Char.isDigit).isEmpty = true
  · rw [if_pos hn] at h
    exact absurd h (by simp)
  · rw [if_neg hn] at h
    cases hr : l.dropWhile Char.isDigit with
    | nil => rw [hr] at h; exact absurd h (by simp)
    | cons c1 rest =>
      cases rest with
      | nil => rw [hr] at h; exact absurd h (by simp)
      | cons c2 rt =>
        rw [hr] at h
        by_cases hc : c1 = '/' ∧ c2.isDigit
        · obtain ⟨hc1, hc2⟩ := hc
          subst hc1
          have hne : l.takeWhile Char.isDigit ≠ [] := by
            intro he
            exact hn (by rw [he]; rfl)
          have hdsd := dsd_of_digits_slash (l.takeWhile Char.isDigit)
            (fun c hc => List.mem_takeWhile_imp hc) hc2 hne (t := rt)
          have hl : l = l.takeWhile Char.isDigit ++ l.dropWhile Char.isDigit :=
            (List.takeWhile_append_dropWhile _ _).symm
          rw [hl, hr]
          exact hdsd
        · simp [hc] at h

theorem matchAfterPatchLit_dsd {l : List Char} {res : Option (List Char) × List Char}
    (h : matchAfterPatchLit l = some res) : hasDigitSlashDigit l = true := by
  unfold matchAfterPatchLit at h
  simp only [List.span_eq_take_drop] at h
  set r1 := l.dropWhile isWs with hr1
  by_cases hws : (l.takeWhile isWs).isEmpty = true
  · rw [if_pos hws] at h
    exact absurd h (by simp)
  · rw [if_neg hws] at h
    have hlsplit : l = l.takeWhile isWs ++ r1 := (List.takeWhile_append_dropWhile _ _).symm
    by_cases hv : r1.head? = some 'v'
    · rw [if_pos hv] at h
      obtain ⟨rt, hrt⟩ : ∃ rt, r1 = 'v' :: rt := by
        cases hr : r1 with
        | nil => rw [hr] at hv; simp at hv
        | cons c t =>
          rw [hr] at hv
          simp at hv
          exact ⟨t, by rw [hv]⟩
      set ds := r1.tail.takeWhile Char.isDigit with hds
      set r3 := r1.tail.dropWhile Char.isDigit with hr3
      by_cases hde : ds.isEmpty = true
      · rw [if_pos hde] at h
        exact absurd h (by simp)
      · rw [if_neg hde] at h
        have hdig : ∀ c ∈ ds, c.isDigit = true := fun c hc => List.mem_takeWhile_imp hc
        have hdsne : ds ≠ [] := fun he => hde (by rw [he]; rfl)
        have htail : r1.tail = ds ++ r3 := (List.takeWhile_append_dropWhile _ _).symm
        have lift : hasDigitSlashDigit r1.tail = true → hasDigitSlashDigit l = true := by
          intro hx
          rw [hrt] at hx
          simp only [List.tail_cons] at hx
          rw [hlsplit, hrt]
          exact hasDigitSlashDigit_append (hasDigitSlashDigit_cons hx) _
        by_cases hw2 : (r3.takeWhile isWs).isEmpty = true
        · rw [if_pos hw2] at h
          cases hr3c : r3 with
          | nil => rw [hr3c] at h; exact absurd h (by simp)
          | cons c1 rest =>
            cases rest with
            | nil => rw [hr3c] at h; exact absurd h (by simp)
            | cons c2 rr =>
              rw [hr3c] at h
              by_cases hc : c1 = '/' ∧ c2.isDigit ∧ 2 ≤ ds.length
              · obtain ⟨hc1, hc2, _⟩ := hc
                subst hc1
                refine lift ?_
                rw [htail, hr3c]
                exact dsd_of_digits_slash ds hdig hc2 hdsne
              · simp [hc] at h
        · rw [if_neg hw2] at h
          cases hm : matchNumSlash (r3.dropWhile isWs) with
          | none => rw [hm] at h; exact absurd h (by simp)
          | some nn =>
            refine lift ?_
            rw [htail]
            have hr3split : r3 = r3.takeWhile isWs ++ r3.dropWhile isWs :=
              (List.takeWhile_append_dropWhile _ _).symm
            rw [hr3split, ← List.append_assoc]
            exact hasDigitSlashDigit_append (matchNumSlash_dsd hm) _
    · rw [if_neg hv] at h
      cases hm : matchNumSlash r1 with
      | none => rw [hm] at h; exact absurd h (by simp)
      | some nn =>
        rw [hlsplit]
        exact hasDigitSlashDigit_append (matchNumSlash_dsd hm) _

theorem findPatchMatch_dsd :
    ∀ {l : List Char} {res}, findPatchMatch l = some res → hasDigitSlashDigit l = true := by
  intro l
  induction l with
  | nil => intro res h; simp [findPatchMatch] at h
  | cons c rest ih =>
    intro res h
    rw [findPatchMatch] at h
    cases hd : dropLitChars patchLit (c :: rest) with
    | none =>
      rw [hd] at h
      exact hasDigitSlashDigit_cons (ih h)
    | some r =>
      rw [hd] at h
      have h2 : (match matchAfterPatchLit r with
          | some res2 => some res2
          | none => findPatchMatch rest) = some res := h
      cases hm : matchAfterPatchLit r with
      | none =>
        rw [hm] at h2
        exact hasDigitSlashDigit_cons (ih h2)
      | some res2 =>
        rw [dropLitChars_eq_append hd]
        exact hasDigitSlashDigit_append (matchAfterPatchLit_dsd hm) _

theorem findPatchMatch_hasSubstr :
    ∀ {l : List Char} {res}, findPatchMatch l = some res → hasSubstr patchLit l = true := by
  intro l
  induction l with
  | nil => intro res h; simp [findPatchMatch] at h
  | cons c rest ih =>
    intro res h
    rw [findPatchMatch] at h
    rw [hasSubstr, Bool.or_eq_true]
    cases hd : dropLitChars patchLit (c :: rest) with
    | none =>
      rw [hd] at h
      exact Or.inr (ih h)
    | some r => exact Or.inl rfl

theorem patchBracketLit_eq : patchBracketLit = patchLit ++ [']'] := rfl

/-- C8: a subject without the `[PATCH` marker fails filename derivation
with an `InvalidEvent` decode error, and — independently — a subject
without the `[PATCH]` shortcut and without any `digit/digit` text (so
its bracket cannot hold a `number/total` counter) also fails with an
`InvalidEvent` decode error. -/
theorem missing_marker_rejection (s : List Char) :
    (hasSubstr patchLit s = false →
      ∃ msg, GitPatch.filename s = .error (.InvalidEvent msg)) ∧
    (hasSubstr patchBracketLit s = false → hasDigitSlashDigit s = false →
      ∃ msg, GitPatch.filename s = .error (.InvalidEvent msg)) := by
  have key : hasSubstr patchBracketLit s = false → findPatchMatch s = none →
      ∃ msg, GitPatch.filename s = .error (.InvalidEvent msg) := by
    intro hbr hfp
    have hpvs : patch_version_and_subject s =
        .error (.InvalidEvent ("Can not parse the patch subject `" ++ s.asString ++ "`")) := by
      unfold patch_version_and_subject
      rw [hfp]
    refine ⟨"Can not parse the patch subject `" ++ s.asString ++ "`", ?_⟩
    unfold GitPatch.filename
    rw [if_neg (by simp [hbr]), hpvs]
  constructor
  · intro h
    have hbr : hasSubstr patchBracketLit s = false := by
      cases hq : hasSubstr patchBracketLit s
      · rfl
      · have := hasSubstr_of_append (p := patchLit) (q := [']'])
          (by rw [← patchBracketLit_eq]; exact hq)
        rw [h] at this
        cases this
    have hfp : findPatchMatch s = none := by
      cases hq : findPatchMatch s with
      | none => rfl
      | some res =>
        have := findPatchMatch_hasSubstr hq
        rw [h] at this
        cases this
    exact key hbr hfp
  · intro hbr hdsd
    have hfp : findPatchMatch s = none := by
      cases hq : findPatchMatch s with
      | none => rfl
      | some res =>
        have := findPatchMatch_dsd hq
        rw [hdsd] at this
        cases this
    exact key hbr hfp

/-- C8 witness: the theorem applied at `"Something"` (no `[PATCH`
bracket) and at `"[PATCH v5 2] Something"` (bracket with no
`number/total` counter). -/
theorem missing_marker_rejection_witness :
    (∃ msg, GitPatch.filename "Something".toList = .error (.InvalidEvent msg)) ∧
    (∃ msg, GitPatch.filename "[PATCH v5 2] Something".toList =
      .error (.InvalidEvent msg)) :=
  ⟨(missing_marker_rejection "Something".toList).1 (by decide),
   (missing_marker_rejection "[PATCH v5 2] Something".toList).2 (by decide) (by decide)⟩

theorem isDigit_ne_dash {c : Char} (h : c.isDigit = true) : c ≠ '-' := by
  intro he
  subst he
  exact absurd h (by decide)

theorem isDigit_ne_dot {c : Char} (h : c.isDigit = true) : c ≠ '.' := by
  intro he
  subst he
  exact absurd h (by decide)

theorem isWs_allowedChar_false {c : Char} (h : isWs c = true) : allowedChar c = false := by
  have h2 : ((c = ' ' ∨ c = '\t') ∨ c = '\x0d') ∨ c = '\n' := by
    simpa [isWs, Char.isWhitespace] using h
  rcases h2 with ((rfl | rfl) | rfl) | rfl <;> decide

theorem isWs_lowerReplace (c : Char) : isWs (lowerReplace c) = false := by
  unfold lowerReplace
  by_cases hA : allowedChar c.toLower = true
  · rw [if_pos hA]
    cases hw : isWs c.toLower
    · rfl
    · rw [isWs_allowedChar_false hw] at hA
      cases hA
  · rw [if_neg hA]
    decide

theorem hasDD_of_no_dash : ∀ {l : List Char}, (∀ c ∈ l, c ≠ '-') → hasDD l = false
  | [], _ => rfl
  | [_], _ => rfl
  | a :: b :: rest, h => by
    rw [hasDD]
    have ha : (a == '-') = false := by
      simpa using h a (by simp)
    rw [ha]
    simp only [Bool.false_and, Bool.false_or]
    exact hasDD_of_no_dash fun c hc => h c (List.mem_cons_of_mem _ hc)

theorem hasDD_append_false :
    ∀ {u v : List Char}, hasDD u = false → hasDD v = false →
      (∀ a b, u.getLast? = some a → v.head? = some b → ¬(a = '-' ∧ b = '-')) →
      hasDD (u ++ v) = false
  | [], v, _, hv, _ => hv
  | [a], v, _, hv, hb => by
    cases v with
    | nil => rfl
    | cons b w =>
      rw [List.singleton_append, hasDD, hv]
      have hnot : ¬(a = '-' ∧ b = '-') := hb a b rfl rfl
      simp only [Bool.or_false]
      cases hA : (a == '-')
      · simp
      · cases hB : (b == '-')
        · simp
        · exact absurd ⟨by simpa using hA, by simpa using hB⟩ hnot
  | a :: b :: u', v, hu, hv, hb => by
    rw [List.cons_append, List.cons_append, hasDD]
    rw [hasDD, Bool.or_eq_false_iff] at hu
    rw [hu.1, Bool.false_or]
    rw [← List.cons_append]
    exact hasDD_append_false hu.2 hv
      (fun x y hx hy => hb x y (by rw [List.getLast?_cons_cons]; exact hx) hy)

theorem collapseRuns_eq_map :
    ∀ {l : List Char}, hasDD (l.map lowerReplace) = false →
      collapseRuns (l.map Char.toLower) = l.map lowerReplace
  | [], _ => rfl
  | [c], _ => by
    rw [List.map_singleton, List.map_singleton, collapseRuns]
    unfold lowerReplace
    by_cases hA : allowedChar c.toLower = true
    · rw [if_pos hA, if_pos hA]
    · rw [if_neg hA, if_neg hA]
  | c :: d :: rest, h => by
    rw [List.map_cons, List.map_cons, collapseRuns]
    have htail : hasDD ((d :: rest).map lowerReplace) = false := by
      rw [List.map_cons] at h ⊢
      rw [List.map_cons] at h
      exact hasDD_cons_false h
    by_cases hc : allowedChar c.toLower = true
    · rw [if_pos hc, ← List.map_cons, collapseRuns_eq_map htail]
      have hlc : lowerReplace c = c.toLower := by unfold lowerReplace; rw [if_pos hc]
      simp [List.map_cons, hlc]
    · rw [if_neg hc]
      by_cases hd : allowedChar d.toLower = true
      · rw [if_pos hd, ← List.map_cons, collapseRuns_eq_map htail]
        have hlc : lowerReplace c = '-' := by unfold lowerReplace; rw [if_neg hc]
        simp [List.map_cons, hlc]
      · exfalso
        have hcd : lowerReplace c = '-' ∧ lowerReplace d = '-' := by
          constructor <;> (unfold lowerReplace)
          · rw [if_neg hc]
          · rw [if_neg hd]
        rw [List.map_cons, List.map_cons, hasDD, hcd.1, hcd.2] at h
        simp at h

theorem matchNumSlash_shape {l n : List Char} (h : matchNumSlash l = some n) :
    n ≠ [] ∧ ∀ c ∈ n, c.isDigit = true := by
  unfold matchNumSlash at h
  simp only [List.span_eq_take_drop] at h
  by_cases hn : (l.takeWhile Char.isDigit).isEmpty = true
  · rw [if_pos hn] at h
    exact absurd h (by simp)
  · rw [if_neg hn] at h
    cases hr : l.dropWhile Char.isDigit with
    | nil => rw [hr] at h; exact absurd h (by simp)
    | cons c1 rest =>
      cases rest with
      | nil => rw [hr] at h; exact absurd h (by simp)
      | cons c2 rt =>
        rw [hr] at h
        have h2 : (if c1 = '/' ∧ c2.isDigit = true
            then (some (l.takeWhile Char.isDigit) : Option (List Char))
            else none) = some n := h
        by_cases hc : c1 = '/' ∧ c2.isDigit = true
        · rw [if_pos hc] at h2
          have hn2 : l.takeWhile Char.isDigit = n := Option.some.inj h2
          subst hn2
          exact ⟨fun he => hn (by rw [he]; rfl), fun c hc2 => List.mem_takeWhile_imp hc2⟩
        · rw [if_neg hc] at h2
          exact absurd h2 (by simp)

theorem matchAfterPatchLit_shape {l : List Char} {v? : Option (List Char)} {n : List Char}
    (h : matchAfterPatchLit l = some (v?, n)) :
    (n ≠ [] ∧ ∀ c ∈ n, c.isDigit = true) ∧
    (∀ ds2, v? = some ds2 → ds2 ≠ [] ∧ ∀ c ∈ ds2, c.isDigit = true) := by
  unfold matchAfterPatchLit at h
  simp only [List.span_eq_take_drop] at h
  set r1 := l.dropWhile isWs with hr1
  by_cases hws : (l.takeWhile isWs).isEmpty = true
  · rw [if_pos hws] at h
    exact absurd h (by simp)
  · rw [if_neg hws] at h
    by_cases hv : r1.head? = some 'v'
    · rw [if_pos hv] at h
      set ds := r1.tail.takeWhile Char.isDigit with hds
      set r3 := r1.tail.dropWhile Char.isDigit with hr3
      have hdig : ∀ c ∈ ds, c.isDigit = true := fun c hc => List.mem_takeWhile_imp hc
      by_cases hde : ds.isEmpty = true
      · rw [if_pos hde] at h
        exact absurd h (by simp)
      · rw [if_neg hde] at h
        have hdsne : ds ≠ [] := fun he => hde (by rw [he]; rfl)
        by_cases hw2 : (r3.takeWhile isWs).isEmpty = true
        · rw [if_pos hw2] at h
          cases hr3c : r3 with
          | nil => rw [hr3c] at h; exact absurd h (by simp)
          | cons c1 rest =>
            cases rest with
            | nil => rw [hr3c] at h; exact absurd h (by simp)
            | cons c2 rr =>
              rw [hr3c] at h
              have h2 : (if c1 = '/' ∧ c2.isDigit = true ∧ 2 ≤ ds.length
                  then (some (some ds.dropLast, ds.drop (ds.length - 1)) :
                    Option (Option (List Char) × List Char))
                  else none) = some (v?, n) := h
              by_cases hc : c1 = '/' ∧ c2.isDigit = true ∧ 2 ≤ ds.length
              · rw [if_pos hc] at h2
                have hpair := Option.some.inj h2
                have hv? : some ds.dropLast = v? := congrArg Prod.fst hpair
                have hn : ds.drop (ds.length - 1) = n := congrArg Prod.snd hpair
                constructor
                · constructor
                  · rw [← hn]
                    intro he
                    have hlen := congrArg List.length he
                    rw [List.length_drop] at hlen
                    simp only [List.length_nil] at hlen
                    omega
                  · intro cc hcc
                    rw [← hn] at hcc
                    exact hdig cc (List.mem_of_mem_drop hcc)
                · intro ds2 hds2
                  rw [← hv?] at hds2
                  have hds2' : ds.dropLast = ds2 := Option.some.inj hds2
                  subst hds2'
                  constructor
                  · intro he
                    have hlen := congrArg List.length he
                    rw [List.length_dropLast] at hlen
                    simp only [List.length_nil] at hlen
                    omega
                  · intro cc hcc
                    exact hdig cc ((List.dropLast_sublist ds).subset hcc)
              · rw [if_neg hc] at h2
                exact absurd h2 (by simp)
        · rw [if_neg hw2] at h
          obtain ⟨nn, hnn, heq⟩ := Option.map_eq_some'.mp h
          have hv? : some ds = v? := congrArg Prod.fst heq
          have hn : nn = n := congrArg Prod.snd heq
          subst hn
          refine ⟨matchNumSlash_shape hnn, fun ds2 hds2 => ?_⟩
          rw [← hv?] at hds2
          have : ds = ds2 := Option.some.inj hds2
          subst this
          exact ⟨hdsne, hdig⟩
    · rw [if_neg hv] at h
      obtain ⟨nn, hnn, heq⟩ := Option.map_eq_some'.mp h
      have hv? : (none : Option (List Char)) = v? := congrArg Prod.fst heq
      have hn : nn = n := congrArg Prod.snd heq
      subst hn
      refine ⟨matchNumSlash_shape hnn, fun ds2 hds2 => ?_⟩
      rw [← hv?] at hds2
      exact absurd hds2 (by simp)

theorem findPatchMatch_shape :
    ∀ {l : List Char} {v? : Option (List Char)} {n : List Char},
      findPatchMatch l = some (v?, n) →
      (n ≠ [] ∧ ∀ c ∈ n, c.isDigit = true) ∧
      (∀ ds2, v? = some ds2 → ds2 ≠ [] ∧ ∀ c ∈ ds2, c.isDigit = true) := by
  intro l
  induction l with
  | nil => intro v? n h; simp [findPatchMatch] at h
  | cons c rest ih =>
    intro v? n h
    rw [findPatchMatch] at h
    cases hd : dropLitChars patchLit (c :: rest) with
    | none =>
      rw [hd] at h
      exact ih h
    | some r =>
      rw [hd] at h
      have h2 : (match matchAfterPatchLit r with
          | some res => some res
          | none => findPatchMatch rest) = some (v?, n) := h
      cases hm : matchAfterPatchLit r with
      | none =>
        rw [hm] at h2
        exact ih h2
      | some res2 =>
        rw [hm] at h2
        have hres : res2 = (v?, n) := Option.some.inj h2
        subst hres
        exact matchAfterPatchLit_shape hm

theorem patch_version_and_subject_shape {s ver num : List Char}
    (h : patch_version_and_subject s = .ok (ver, num)) :
    (num ≠ [] ∧ ∀ c ∈ num, c.isDigit = true) ∧
    (ver = [] ∨ ∃ ds, ds ≠ [] ∧ (∀ c ∈ ds, c.isDigit = true) ∧ ver = 'v' :: ds ++ ['-']) := by
  unfold patch_version_and_subject at h
  cases hf : findPatchMatch s with
  | none =>
    rw [hf] at h
    exact absurd h (by simp)
  | some res =>
    obtain ⟨v?, n⟩ := res
    rw [hf] at h
    cases v? with
    | none =>
      have h2 : (Except.ok (([] : List Char), n) : Except N34Error (List Char × List Char)) =
          .ok (ver, num) := h
      have hpair := Except.ok.inj h2
      have hver : ([] : List Char) = ver := congrArg Prod.fst hpair
      have hn : n = num := congrArg Prod.snd hpair
      subst hn
      obtain ⟨hnum, _⟩ := findPatchMatch_shape hf
      exact ⟨hnum, Or.inl hver.symm⟩
    | some ds =>
      have h2 : (Except.ok (('v' :: ds ++ ['-'] : List Char), n) :
          Except N34Error (List Char × List Char)) = .ok (ver, num) := h
      have hpair := Except.ok.inj h2
      have hver := congrArg Prod.fst hpair
      have hn : n = num := congrArg Prod.snd hpair
      subst hn
      obtain ⟨hnum, hds⟩ := findPatchMatch_shape hf
      exact ⟨hnum, Or.inr ⟨ds, (hds ds rfl).1, (hds ds rfl).2, hver.symm⟩⟩

theorem pad_mem_not_dash_dot {num : List Char} (hdig : ∀ c ∈ num, c.isDigit = true) :
    ∀ c ∈ padNum num, c ≠ '-' ∧ c ≠ '.' := by
  intro c hc
  rcases List.mem_append.mp hc with hrep | hnum
  · have : c = '0' := List.eq_of_mem_replicate hrep
    subst this
    exact ⟨by decide, by decide⟩
  · exact ⟨isDigit_ne_dash (hdig c hnum), isDigit_ne_dot (hdig c hnum)⟩

theorem padNum_ne_nil {num : List Char} (h : num ≠ []) : padNum num ≠ [] := by
  intro he
  rcases List.append_eq_nil.mp he with ⟨_, h2⟩
  exact h h2

theorem ver_mem_not_dot {ver : List Char}
    (hver : ver = [] ∨ ∃ ds, ds ≠ [] ∧ (∀ c ∈ ds, c.isDigit = true) ∧ ver = 'v' :: ds ++ ['-']) :
    ∀ c ∈ ver, c ≠ '.' := by
  intro c hc
  rcases hver with rfl | ⟨ds, _, hdig, rfl⟩
  · cases hc
  · rcases List.mem_cons.mp hc with rfl | hc2
    · decide
    · rcases List.mem_append.mp hc2 with hds | hdash
      · exact isDigit_ne_dot (hdig c hds)
      · have : c = '-' := by simpa using hdash
        subst this
        decide

theorem hasDD_ver {ver : List Char}
    (hver : ver = [] ∨ ∃ ds, ds ≠ [] ∧ (∀ c ∈ ds, c.isDigit = true) ∧ ver = 'v' :: ds ++ ['-']) :
    hasDD ver = false := by
  rcases hver with rfl | ⟨ds, hne, hdig, rfl⟩
  · rfl
  · have hnod : ∀ c ∈ 'v' :: ds, c ≠ '-' := by
      intro c hc
      rcases List.mem_cons.mp hc with rfl | hc2
      · decide
      · exact isDigit_ne_dash (hdig c hc2)
    refine hasDD_append_false (hasDD_of_no_dash hnod) rfl ?_
    intro a b ha hb
    intro hab
    have hmem : a ∈ 'v' :: ds := by
      obtain ⟨hne2, ha2⟩ := List.mem_getLast?_eq_getLast (by rw [ha]; rfl)
      rw [ha2]
      exact List.getLast_mem hne2
    exact hnod a hmem hab.1

theorem name_clean (ver num name : List Char)
    (hver : ver = [] ∨ ∃ ds, ds ≠ [] ∧ (∀ c ∈ ds, c.isDigit = true) ∧ ver = 'v' :: ds ++ ['-'])
    (hnum : num ≠ [] ∧ ∀ c ∈ num, c.isDigit = true)
    (hname_dd : hasDD ('-' :: name) = false)
    (hname_dot : '.' ∉ name) :
    hasDD (ver ++ padNum num ++ '-' :: name) = false ∧
    '.' ∉ ver ++ padNum num ++ '-' :: name := by
  have hpad := pad_mem_not_dash_dot hnum.2
  have hpad_dd : hasDD (padNum num) = false :=
    hasDD_of_no_dash fun c hc => (hpad c hc).1
  have hpne := padNum_ne_nil hnum.1
  constructor
  · refine hasDD_append_false ?_ hname_dd ?_
    · refine hasDD_append_false (hasDD_ver hver) hpad_dd ?_
      intro a b _ hb hab
      have hbm : b ∈ padNum num := List.mem_of_mem_head? hb
      exact (hpad b hbm).1 hab.2
    · intro a b ha _ hab
      rw [List.getLast?_append_of_ne_nil _ hpne] at ha
      have hmem : a ∈ padNum num := by
        obtain ⟨hne2, ha2⟩ := List.mem_getLast?_eq_getLast (by rw [ha]; rfl)
        rw [ha2]
        exact List.getLast_mem hne2
      exact (hpad a hmem).1 hab.1
  · intro hdot
    rcases List.mem_append.mp hdot with hvp | hn2
    · rcases List.mem_append.mp hvp with hv | hp
      · exact ver_mem_not_dot hver '.' hv rfl
      · exact (hpad '.' hp).2 rfl
    · rcases List.mem_cons.mp hn2 with he | hn3
      · exact absurd he (by decide)
      · exact hname_dot hn3

theorem buildPatchFileName_clean {ver num name : List Char}
    (hdd : hasDD (ver ++ padNum num ++ '-' :: name) = false)
    (hdot : '.' ∉ ver ++ padNum num ++ '-' :: name) :
    buildPatchFileName ver num name =
      ver ++ padNum num ++ '-' :: (name ++ '.' :: "patch".toList) := by
  unfold buildPatchFileName
  rw [replaceDashDash_eq_self hdd, with_extension_of_no_dot hdot]
  simp [List.append_assoc, List.cons_append]

theorem filename_reduction_regex {s ver num slug : List Char}
    (hbr : hasSubstr patchBracketLit s = false)
    (hpvs : patch_version_and_subject s = .ok (ver, num))
    (hnum : ¬(num = ['0'])) (hpfn : patch_file_name s = .ok slug) :
    GitPatch.filename s = .ok (buildPatchFileName ver num slug) := by
  have hred : GitPatch.filename s =
      (match (if num = ['0'] then (.ok "cover-letter".toList : Except N34Error (List Char))
          else patch_file_name s) with
        | .error e => .error e
        | .ok name => .ok (buildPatchFileName ver num name)) := by
    unfold GitPatch.filename
    rw [if_neg (by simp [hbr]), hpvs]
  rw [hred, if_neg hnum, hpfn]

theorem filename_reduction_cover {s ver num : List Char}
    (hbr : hasSubstr patchBracketLit s = false)
    (hpvs : patch_version_and_subject s = .ok (ver, num))
    (hnum : num = ['0']) :
    GitPatch.filename s = .ok (buildPatchFileName ver num "cover-letter".toList) := by
  have hred : GitPatch.filename s =
      (match (if num = ['0'] then (.ok "cover-letter".toList : Except N34Error (List Char))
          else patch_file_name s) with
        | .error e => .error e
        | .ok name => .ok (buildPatchFileName ver num name)) := by
    unfold GitPatch.filename
    rw [if_neg (by simp [hbr]), hpvs]
  rw [hred, if_pos hnum]

theorem patch_file_name_eq {s before af : List Char}
    (hsplit : splitOnceAt ']' s = some (before, af))
    (haf : trimBy isWs af = af)
    (hdd : hasDD (af.map lowerReplace) = false)
    (hlen : af.length ≤ 60) :
    patch_file_name s = .ok (trimBy (· == '-') (af.map lowerReplace)) := by
  have hred : patch_file_name s = .ok (replaceDashDash (trimBy isWs (trimBy (· == '-')
      (List.take 60 ((trimBy isWs af).map lowerReplace))))) := by
    unfold patch_file_name
    rw [hsplit]
  rw [hred, haf, List.take_of_length_le (by rw [List.length_map]; exact hlen)]
  have hTno_ws : ∀ c ∈ trimBy (· == '-') (af.map lowerReplace), isWs c = false := by
    intro c hc
    obtain ⟨d, _, rfl⟩ := List.mem_map.mp (mem_trimBy hc)
    exact isWs_lowerReplace d
  rw [trimBy_eq_self_of_all hTno_ws, replaceDashDash_eq_self (hasDD_trimBy hdd)]

theorem hasDD_dash_T {af : List Char} (hdd : hasDD (af.map lowerReplace) = false) :
    hasDD ('-' :: trimBy (· == '-') (af.map lowerReplace)) = false := by
  have hTdd : hasDD (trimBy (· == '-') (af.map lowerReplace)) = false := hasDD_trimBy hdd
  cases hc : trimBy (· == '-') (af.map lowerReplace) with
  | nil => rfl
  | cons c rest =>
    rw [hasDD]
    have hcd : (c == '-') = false := trimBy_head_false (p := fun x => x == '-') hc
    rw [hcd]
    simp only [Bool.and_false, Bool.false_or]
    rw [← hc]
    exact hTdd

theorem claimSlug_eq {af : List Char}
    (hdd : hasDD (af.map lowerReplace) = false)
    (hlen : af.length ≤ 60) :
    claimSlug af = trimBy (· == '-') (af.map lowerReplace) := by
  unfold claimSlug
  rw [collapseRuns_eq_map hdd, List.take_of_length_le (by rw [List.length_map]; exact hlen)]

/-- C7 counterexample: for the subject `"[PATCH 1/2] a     b"` (five
spaces) the code derives `0001-a--b.patch`, while the claim's formula —
runs of disallowed characters collapsed to a single `-` — gives
`0001-a-b.patch`: the two successive left-to-right `--` → `-` passes of
the code do not fully collapse a run of five disallowed characters. -/
theorem patch_filename_run_collapse_counterexample :
    GitPatch.filenameStr "[PATCH 1/2] a     b" = .ok "0001-a--b.patch" ∧
    (claimFileName [] ['1'] " a     b".toList).asString = "0001-a-b.patch" ∧
    ("0001-a--b.patch" : String) ≠ "0001-a-b.patch" :=
  ⟨rfl, rfl, by decide⟩

/-- C7 (amended): for every accepted subject, the filename is
`<version-prefix><4-digit-zero-padded-number>-<slug>.patch`; the
literal counter `"0"` forces the `cover-letter` slug (e.g. the subject
`"[PATCH v2 0/3] feat: Some test just a test"` derives
`v2-0000-cover-letter.patch`); otherwise, whenever the text after the
first `]` is already trimmed, at most 60 characters long, and its
disallowed-character replacement has no adjacent dashes and no `.`, the
slug is exactly the claim's formula (lowercased, disallowed characters
becoming single dashes, trimmed of `-`); outside those conditions the
code's double `--` → `-` pass and its extension handling diverge from
the claim, as the counterexample shows. -/
theorem patch_filename_derivation (s before ver num af : List Char)
    (hbr : hasSubstr patchBracketLit s = false)
    (hpvs : patch_version_and_subject s = .ok (ver, num))
    (hsplit : splitOnceAt ']' s = some (before, af)) :
    (num = ['0'] →
      GitPatch.filename s = .ok (ver ++ "0000-cover-letter.patch".toList)) ∧
    (num ≠ ['0'] → trimBy isWs af = af → hasDD (af.map lowerReplace) = false →
      af.length ≤ 60 → '.' ∉ af.map lowerReplace →
      GitPatch.filename s = .ok (claimFileName ver num af)) ∧
    GitPatch.filenameStr "[PATCH v2 0/3] feat: Some test just a test" =
      .ok "v2-0000-cover-letter.patch" := by
  obtain ⟨hnum, hver⟩ := patch_version_and_subject_shape hpvs
  refine ⟨fun h0 => ?_, fun hn0 haf hdd hlen hdot => ?_, by rfl⟩
  · rw [filename_reduction_cover hbr hpvs h0]
    subst h0
    have hclean := name_clean ver ['0'] "cover-letter".toList hver hnum
      (by decide) (by decide)
    rw [buildPatchFileName_clean hclean.1 hclean.2]
    simp only [List.append_assoc]
    rfl
  · rw [filename_reduction_regex hbr hpvs hn0 (patch_file_name_eq hsplit haf hdd hlen)]
    have hname_dot : '.' ∉ trimBy (· == '-') (af.map lowerReplace) :=
      fun hc => hdot (mem_trimBy hc)
    have hclean := name_clean ver num (trimBy (· == '-') (af.map lowerReplace)) hver hnum
      (hasDD_dash_T hdd) hname_dot
    rw [buildPatchFileName_clean hclean.1 hclean.2]
    unfold claimFileName
    rw [claimSlug_eq hdd hlen]
    simp [List.append_assoc, List.cons_append]

/-- C7 witness: the theorem applied at the cover-letter subject
`"[PATCH v2 0/3] feat: Some test just a test"`. -/
theorem patch_filename_derivation_witness :
    GitPatch.filename "[PATCH v2 0/3] feat: Some test just a test".toList =
      .ok "v2-0000-cover-letter.patch".toList :=
  (patch_filename_derivation "[PATCH v2 0/3] feat: Some test just a test".toList
    "[PATCH v2 0/3".toList ['v', '2', '-'] ['0']
    " feat: Some test just a test".toList (by decide) rfl rfl).1 rfl
